import Mathlib

/-!
Verification of the RDPM/RBAC graphical modeling tool's validation core.

Shallow embedding of:
* `src/utils/patternValidation.js` — `validateTaskChain` (isolated-task scan
  and start-node cycle detection over `nextTaskId` chains);
* `src/utils/taskValidation.js` — `validateTaskOperation`;
* `src/services/AuthorizationService.js` — `isResourceAvailable`,
  `validateResourceAllocation`, `countResourceShares`;
* `src/hooks/useRole.js` — `getRolePermissions`, `validateRoleHierarchy`
  and the accept/reject decision of `handleAddOrEditRole`;
* the pattern editor's `handleSave`.

JavaScript objects are modeled as association lists (insertion order kept),
`undefined`/missing values as `Option`, and JS `Set` as a Lean `List` used
only through membership.  Recursions that JavaScript runs unboundedly are
given an explicit fuel argument; every theorem that depends on fuel either
evaluates at a fuel provably large enough or proves fuel-independence.
-/

namespace RDPM

/-- A task as read by `validateTaskChain` (patternValidation.js):
`id`, `name`, the optional `nextTaskId` pointer and the `isEndTask` marker.
A JS-falsy `nextTaskId` (absent or empty) is modeled as `none`. -/
structure ChainTask where
  id : String
  name : String
  nextTaskId : Option String := none
  isEndTask : Bool := false
deriving DecidableEq, Repr

/-- The `taskProperties` object: an association list from task key to task. -/
abbrev TaskMap := List (String × ChainTask)

/-- Embeds `taskProperties[taskId]` — JS property lookup on the task map. -/
def lookupTask (tp : TaskMap) (k : String) : Option ChainTask :=
  (tp.find? (fun e => e.1 = k)).map (fun e => e.2)

/-- Embeds `tasks.some((t) => t.nextTaskId === task.id)` — the task has an
incoming `nextTaskId` edge (the task itself is among the candidates,
exactly as in the JS `some` over all tasks). -/
def hasIncoming (values : List ChainTask) (t : ChainTask) : Bool :=
  values.any (fun u => u.nextTaskId = some t.id)

/-- Embeds `task.nextTaskId || task.isEndTask` — the task has an outgoing edge or
an explicit terminal marker. -/
def hasOutgoing (t : ChainTask) : Bool :=
  t.nextTaskId.isSome || t.isEndTask

/-- The tasks flagged by the isolated-task scan of `validateTaskChain`:
no incoming edge, no outgoing edge, no terminal marker. -/
def isolatedTasks (tp : TaskMap) : List ChainTask :=
  (tp.map (fun e => e.2)).filter
    (fun t => !hasIncoming (tp.map (fun e => e.2)) t && !hasOutgoing t)

/-- The error strings pushed by the isolated-task scan. -/
def isolatedMessages (tp : TaskMap) : List String :=
  (isolatedTasks tp).map (fun t => "Task \"" ++ t.name ++ "\" is isolated")

/-- Embeds `startTasks` — tasks no task's `nextTaskId` points to; only these seed
the circular-reference walk of `validateTaskChain`. -/
def startTasks (tp : TaskMap) : List ChainTask :=
  (tp.map (fun e => e.2)).filter (fun t => !hasIncoming (tp.map (fun e => e.2)) t)

/-- Embeds `checkCircular(taskId, path)` with the shared mutable `visited` set made
explicit.  Returns the updated `visited` set and whether the walk pushed the
circular-dependency error.  The JS recursion is bounded because each step
adds a fresh map key to `path`; the fuel argument makes that bound explicit
(callers pass `tp.length + 1`, which is proved sufficient below). -/
def checkCircular (tp : TaskMap) : Nat → String → List String → List String →
    (List String × Bool)
  | 0, _, _, visited => (visited, false)
  | fuel + 1, taskId, path, visited =>
    if taskId ∈ path then (visited, true)
    else if taskId ∈ visited then (visited, false)
    else
      match lookupTask tp taskId with
      | none => (visited, false)
      | some t =>
        match t.nextTaskId with
        | none => (taskId :: visited, false)
        | some nxt => checkCircular tp fuel nxt (taskId :: path) (taskId :: visited)

/-- Embeds `startTasks.forEach((task) => checkCircular(task.id))` — the walks run in
order, threading the shared `visited` set and counting the pushed
circular-dependency errors. -/
def runWalks (tp : TaskMap) : List ChainTask → List String → Nat → Nat
  | [], _, e => e
  | t :: rest, visited, e =>
    let r := checkCircular tp (tp.length + 1) t.id [] visited
    runWalks tp rest r.1 (if r.2 then e + 1 else e)

/-- Number of circular-dependency errors pushed by `validateTaskChain`. -/
def circCount (tp : TaskMap) : Nat :=
  runWalks tp (startTasks tp) [] 0

/-- The `{isValid, message}` record returned by `validateTaskChain`. -/
structure VResult where
  isValid : Bool
  message : String
deriving DecidableEq, Repr

/-- Embeds `validateTaskChain(taskProperties)` from patternValidation.js: empty map
is rejected outright; otherwise the error list is the isolated-task messages
followed by one circular-dependency message per erroring start walk, and
`isValid` holds iff the error list is empty. -/
def validateTaskChain (tp : TaskMap) : VResult :=
  if tp.isEmpty then ⟨false, "No tasks defined in the pattern"⟩
  else
    let errors := isolatedMessages tp ++
      List.replicate (circCount tp) "Circular dependency detected in task chain"
    ⟨errors.isEmpty, String.intercalate "; " errors⟩

/-- One step of the `nextTaskId` walk: from a task key to the key it points
to, `none` once the walk has left the map or reached a task without a
successor. -/
def stepNext (tp : TaskMap) : Option String → Option String
  | none => none
  | some id => (lookupTask tp id).bind (fun t => t.nextTaskId)

/-- The key reached after `k` `nextTaskId` hops from `s` (`none` if the walk
has died before step `k`). -/
def walkAt (tp : TaskMap) (s : String) (k : Nat) : Option String :=
  (stepNext tp)^[k] (some s)

/-- The `nextTaskId` walk from `s` passes the same key twice. -/
def walkRevisits (tp : TaskMap) (s : String) : Prop :=
  ∃ a b, a < b ∧ ∃ u, walkAt tp s a = some u ∧ walkAt tp s b = some u

/-- The `nextTaskId` walk from `s` never dies. -/
def walkInfinite (tp : TaskMap) (s : String) : Prop :=
  ∀ k, walkAt tp s k ≠ none

/-! ## The pattern editor's save handler -/

/-- Outcome of `handleSave`: blocked on the missing name, blocked on the
task-chain guard, or dispatched to the store. -/
inductive SaveOutcome where
  | nameError : SaveOutcome
  | chainError : SaveOutcome
  | saved : SaveOutcome
deriving DecidableEq, Repr

/-- The JS guard `!validateTaskChain(taskProperties)` negates the returned
object itself, not its `isValid` field; a JS object is always truthy, so the
negation is constantly `false`.  This function makes that truthiness test
explicit. -/
def jsObjectIsFalsy (_ : VResult) : Bool := false

/-- Embeds `handleSave` from the pattern editor: reject an empty pattern name, then
run the task-chain guard exactly as written (`if (!validateTaskChain(...))`),
then dispatch `addPattern`. -/
def handleSave (patternName : String) (tp : TaskMap) : SaveOutcome :=
  if patternName = "" then .nameError
  else if jsObjectIsFalsy (validateTaskChain tp) then .chainError
  else .saved

/-! ## `validateTaskOperation` (taskValidation.js) -/

/-- A task as read by `validateTaskOperation`; every field the function
touches may be absent in JS, hence the `Option`s. -/
structure OpTask where
  id : Option String := none
  name : Option String := none
  nextTaskId : Option String := none
deriving DecidableEq, Repr

/-- The `{isValid, message?}` record returned by taskValidation.js. -/
structure OpResult where
  isValid : Bool
  message : Option String := none
deriving DecidableEq, Repr

/-- Embeds `validateTaskOperation(operation, taskData, existingTasks)`: a switch on
the operation name with cases `add`, `delete`, `update` and no default; any
case that does not return early falls through to `{isValid: true}`. -/
def validateTaskOperation (operation : String) (taskData : OpTask)
    (existingTasks : List (String × OpTask)) : OpResult :=
  if operation = "add" then
    match taskData.name with
    | none => ⟨false, some "Task name is required"⟩
    | some s => if s.trim = "" then ⟨false, some "Task name is required"⟩ else ⟨true, none⟩
  else if operation = "delete" then
    if ((existingTasks.map (fun e => e.2)).filter
        (fun t => t.nextTaskId = taskData.id)).length > 1 then
      ⟨false, some "Cannot delete task with multiple dependencies"⟩
    else ⟨true, none⟩
  else if operation = "update" then
    if taskData.nextTaskId = taskData.id then
      ⟨false, some "Task cannot reference itself"⟩
    else ⟨true, none⟩
  else ⟨true, none⟩

/-! ## Resource allocation (AuthorizationService.js) -/

/-- A task's `resourceId` field: absent, a single id, or an array of ids. -/
inductive ResId where
  | nullv : ResId
  | one : String → ResId
  | many : List String → ResId
deriving DecidableEq, Repr

/-- A task as read by the allocation validator: its `resourceId` and its
optional `roleResources` map from role id to resource-id list. -/
structure RTask where
  resourceId : ResId := .nullv
  roleResources : Option (List (String × List String)) := none
deriving DecidableEq, Repr

/-- The `resources` entries: `id`, `isShared` and the optional `maxShares`
(JS reads it as `resource.maxShares || 1`). -/
structure Resource where
  id : String
  isShared : Bool := false
  maxShares : Option Nat := none
deriving DecidableEq, Repr

/-- Embeds `resource.maxShares || 1` — a missing or zero `maxShares` is 1. -/
def effMaxShares (r : Resource) : Nat :=
  match r.maxShares with
  | some m => if m = 0 then 1 else m
  | none => 1

/-- Does some list of `roleResources` contain the resource?  Mirrors
`Object.values(roleResources).some((rs) => Array.isArray(rs) && rs.includes(rid))`. -/
def rrContains (rr : Option (List (String × List String))) (rid : String) : Bool :=
  match rr with
  | some l => l.any (fun e => e.2.contains rid)
  | none => false

/-- The per-task test used for tasks OTHER than the excluded one inside
`isResourceAvailable`: when `resourceId` is an array the function returns
its `includes` result directly (so `roleResources` is NOT consulted); a
scalar mismatch falls through to `roleResources`. -/
def taskUsesOther (t : RTask) (rid : String) : Bool :=
  match t.resourceId with
  | .many l => l.contains rid
  | .one s => if s = rid then true else rrContains t.roleResources rid
  | .nullv => rrContains t.roleResources rid

/-- The test applied to the CURRENT task inside `isResourceAvailable`: a
non-matching array `resourceId` still falls through to the `roleResources`
check. -/
def taskUsesCurrent (t : RTask) (rid : String) : Bool :=
  (match t.resourceId with
   | .many l => l.contains rid
   | .one s => s = rid
   | .nullv => false) || rrContains t.roleResources rid

/-- JS property lookup on the allocation task map. -/
def lookupRTask (tp : List (String × RTask)) (k : String) : Option RTask :=
  (tp.find? (fun e => e.1 = k)).map (fun e => e.2)

/-- Embeds `AuthorizationService.isResourceAvailable(resourceId, excludeTaskId,
taskProperties)`: true when the current task already uses the resource, and
otherwise when no other task uses it. -/
def isResourceAvailable (resourceId excludeTaskId : String)
    (tp : List (String × RTask)) : Bool :=
  let isUsedInOtherTasks := tp.any
    (fun e => if e.1 = excludeTaskId then false else taskUsesOther e.2 resourceId)
  match lookupRTask tp excludeTaskId with
  | some currentTask =>
    if taskUsesCurrent currentTask resourceId then true else !isUsedInOtherTasks
  | none => !isUsedInOtherTasks

/-- Embeds `AuthorizationService.countResourceShares(resourceId, taskProperties)`:
a fold over ALL tasks (the candidate task is not excluded) that adds one for
a matching direct `resourceId` and one more for EACH `roleResources` list
containing the resource. -/
def countResourceShares (resourceId : String) (tp : List (String × RTask)) : Nat :=
  tp.foldl
    (fun count e =>
      let count :=
        match e.2.resourceId with
        | .many l => if l.contains resourceId then count + 1 else count
        | .one s => if s = resourceId then count + 1 else count
        | .nullv => count
      match e.2.roleResources with
      | some l => l.foldl (fun c rr => if rr.2.contains resourceId then c + 1 else c) count
      | none => count)
    0

/-- Embeds `AuthorizationService.validateResourceAllocation(taskId, roleId,
resourceId, taskProperties, resources)`.  JS-falsy ids are the empty
string. -/
def validateResourceAllocation (taskId roleId resourceId : String)
    (tp : List (String × RTask)) (resources : List Resource) : VResult :=
  if taskId = "" ∨ resourceId = "" then ⟨false, "Missing required parameters"⟩
  else
    match resources.find? (fun r => r.id = resourceId) with
    | none => ⟨false, "Resource does not exist"⟩
    | some resource =>
      let isAvailable := isResourceAvailable resourceId taskId tp
      if resource.isShared then
        if countResourceShares resourceId tp ≥ effMaxShares resource then
          ⟨false, "Resource sharing limit reached"⟩
        else ⟨true, ""⟩
      else
        ⟨isAvailable, if isAvailable then "" else "Resource is already occupied by another task"⟩

/-- Does a task's binding set contain the resource, in the sense of the
spec's usage count: the union of the direct `resourceId` binding and every
`roleResources` list.  (Reference definition, following the spec's words,
for comparison with `countResourceShares` / `isResourceAvailable`.) -/
def bindingContains (t : RTask) (rid : String) : Bool :=
  (match t.resourceId with
   | .many l => l.contains rid
   | .one s => s = rid
   | .nullv => false) || rrContains t.roleResources rid

/-- The spec's current usage count: the number of tasks OTHER than the
candidate whose binding set contains the resource, counted once per task.
(Reference definition following the spec's words, for comparison with the
code's `countResourceShares`.) -/
def specUsageCount (rid candidateTaskId : String) (tp : List (String × RTask)) : Nat :=
  (tp.filter (fun e => e.1 ≠ candidateTaskId && bindingContains e.2 rid)).length

/-! ## Role hierarchy (useRole.js) -/

/-- A permission entry as stored on a role: either a bare string or an
object `{resource, is_private}` (useRole.js handles both). -/
inductive PermEntry where
  | str : String → PermEntry
  | obj : String → Bool → PermEntry
deriving DecidableEq, Repr

/-- The normalized `{resource, is_private}` shape produced by
`getRolePermissions`. -/
structure Perm where
  resource : String
  is_private : Bool
deriving DecidableEq, Repr

/-- Embeds `{resource: typeof p === "string" ? p : p.resource,
     is_private: typeof p === "object" ? p.is_private : false}`. -/
def normalizePerm : PermEntry → Perm
  | .str s => ⟨s, false⟩
  | .obj r p => ⟨r, p⟩

/-- A role as read by useRole.js: `name`, optional `parent_role`, and its
permission list. -/
structure Role where
  name : String
  parent_role : Option String := none
  permissions : List PermEntry := []
deriving DecidableEq, Repr

/-- The `{direct, inherited}` pair returned by `getRolePermissions`. -/
structure RolePerms where
  direct : List Perm := []
  inherited : List Perm := []
deriving DecidableEq, Repr

/-- The duplicate-removal step of `getRolePermissions`:
`filter((perm, i, self) => i === findIndex((p) => p.resource === perm.resource))`
keeps the first occurrence of each `resource` name; `seen` carries the
resource names already kept. -/
def dedupSeen : List String → List Perm → List Perm
  | _, [] => []
  | seen, p :: rest =>
    if p.resource ∈ seen then dedupSeen seen rest
    else p :: dedupSeen (p.resource :: seen) rest

/-- Keep the first occurrence of each `resource` name. -/
def dedupByResource (l : List Perm) : List Perm := dedupSeen [] l

/-- A child role's contribution to the inherited set: its non-private direct
permissions followed by its own inherited set. -/
def childContribution (cp : RolePerms) : List Perm :=
  cp.direct.filter (fun p => !p.is_private) ++ cp.inherited

/-- The accumulation loop over child roles inside `getRolePermissions`,
parametrized by the recursive call `g`. -/
def inheritedOf (g : String → RolePerms) (children : List Role) : List Perm :=
  children.foldl (fun acc c => acc ++ childContribution (g c.name)) []

/-- Embeds `getRolePermissions(roleName)` from useRole.js: find the role, take its
normalized permission list as `direct`, recursively collect every child
role's non-private direct permissions plus inherited set, and de-duplicate
by resource name.  The JS recursion has no cycle guard and no memoization;
the fuel argument makes its depth explicit. -/
def getRolePermissions (roles : List Role) : Nat → String → RolePerms
  | 0, _ => ⟨[], []⟩
  | fuel + 1, roleName =>
    match roles.find? (fun r => r.name = roleName) with
    | none => ⟨[], []⟩
    | some role =>
      ⟨role.permissions.map normalizePerm,
       dedupByResource (inheritedOf (getRolePermissions roles fuel)
         (roles.filter (fun r => r.parent_role = some roleName)))⟩

/-- The payload `handleAddOrEditRole` receives for the role being created or
edited: its `name` and the proposed `parent_role`. -/
structure RoleData where
  name : String
  parent_role : Option String := none
deriving DecidableEq, Repr

/-- Embeds `checkCycle(roleName, visited)` inside `validateRoleHierarchy`: walk the
parent chain STORED in `roles` starting from `roleName`, returning `false`
(cycle) when a name repeats.  The proposed parent link is never consulted.
Fuel bounds the walk; callers pass `roles.length + 1`. -/
def checkCycleHier (roles : List Role) : Nat → String → List String → Bool
  | 0, _, _ => false
  | fuel + 1, roleName, visited =>
    if roleName ∈ visited then false
    else
      match roles.find? (fun r => r.name = roleName) with
      | some r =>
        match r.parent_role with
        | some p => checkCycleHier roles fuel p (roleName :: visited)
        | none => true
      | none => true

/-- Embeds `validateRoleHierarchy(roleData)` — `checkCycle(roleData.name)`. -/
def validateRoleHierarchy (roles : List Role) (roleData : RoleData) : Bool :=
  checkCycleHier roles (roles.length + 1) roleData.name []

/-- The accept/reject decision of `handleAddOrEditRole`:
`if (roleData.parent_role && !validateRoleHierarchy(roleData)) throw`.
Accepted iff the proposed parent is absent or the hierarchy check passes. -/
def roleEditAccepted (roles : List Role) (roleData : RoleData) : Bool :=
  !(roleData.parent_role.isSome && !validateRoleHierarchy roles roleData)

/-- Modelled from the spec (§4.1 `createOrUpdateRole`): walk ancestors from
the PROPOSED parent through the stored parent chain and reject when the
edited role's name appears.  Reference definition for comparison with
`validateRoleHierarchy`. -/
def specAncestorWalkHits (roles : List Role) (target : String) :
    Nat → Option String → Bool
  | 0, _ => false
  | _ + 1, none => false
  | fuel + 1, some cur =>
    if cur = target then true
    else specAncestorWalkHits roles target fuel
      ((roles.find? (fun r => r.name = cur)).bind (fun r => r.parent_role))

/-- Modelled from the spec: the cycle rejection `createOrUpdateRole` is
required to perform on the proposed parent link. -/
def specParentCycleRejects (roles : List Role) (roleData : RoleData) : Bool :=
  match roleData.parent_role with
  | some p => specAncestorWalkHits roles roleData.name (roles.length + 1) (some p)
  | none => false

/-! ## Concrete inputs used by the theorems -/

/-- A closed two-task cycle: `t1 → t2 → t1`.  Every task has an incoming
edge, so the map has no start node. -/
def tpCycClosed : TaskMap :=
  [("t1", ⟨"t1", "A", some "t2", false⟩), ("t2", ⟨"t2", "B", some "t1", false⟩)]

/-- A chain whose start node leads into a cycle: `t1 → t2 → t3 → t2`. -/
def tpStartCycle : TaskMap :=
  [("t1", ⟨"t1", "A", some "t2", false⟩),
   ("t2", ⟨"t2", "B", some "t3", false⟩),
   ("t3", ⟨"t3", "C", some "t2", false⟩)]

/-- A pattern with exactly one task, no links, no terminal marker. -/
def tpSingle : TaskMap := [("t1", ⟨"t1", "A", none, false⟩)]

/-- Task `t1` already holds resource `r1` directly. -/
def tpSelf : List (String × RTask) := [("t1", ⟨.one "r1", none⟩)]

/-- Two distinct tasks both hold resource `r1` directly. -/
def tpDouble : List (String × RTask) :=
  [("t1", ⟨.one "r1", none⟩), ("t2", ⟨.one "r1", none⟩)]

/-- One ManyToMany task listing resource `r2` under two different roles. -/
def tpRoleDup : List (String × RTask) :=
  [("u", ⟨.nullv, some [("roleA", ["r2"]), ("roleB", ["r2"])]⟩)]

/-- Resource `r1` as a shared resource with `maxShares = 1`. -/
def resSharedOne : List Resource := [⟨"r1", true, some 1⟩]

/-- Resource `r1` as an exclusive resource. -/
def resExclusive : List Resource := [⟨"r1", false, none⟩]

/-- Resource `r2` as a shared resource with `maxShares = 2`. -/
def resShared2 : List Resource := [⟨"r2", true, some 2⟩]

/-- A single stored role `A` with no parent. -/
def rolesSingleA : List Role := [⟨"A", none, []⟩]

/-- The edit proposing role `A` as its own parent. -/
def roleDataSelf : RoleData := ⟨"A", some "A"⟩

/-- A cyclic stored hierarchy: `A.parent_role = B`, `B.parent_role = A`. -/
def rolesCyc : List Role :=
  [⟨"A", some "B", [.obj "p" false]⟩, ⟨"B", some "A", [.obj "q" false]⟩]

/-- Scenario D: `Employee.parent_role = Manager`; Employee holds non-private
`timesheet` and private `salary`. -/
def rolesMgr : List Role :=
  [⟨"Manager", none, [.obj "budget" false]⟩,
   ⟨"Employee", some "Manager", [.obj "timesheet" false, .obj "salary" true]⟩]

/-! ## Claim theorems: concrete evaluations -/

/-- C1, counterexample: in the closed cycle `t1 → t2 → t1` the task `t1` is
reachable from itself in two `nextTaskId` hops, yet `validateTaskChain`
reports the map as valid — the claimed "failure iff some task is reachable
from itself" equivalence is false, precisely on a cycle in which every task
has an incoming edge. -/
theorem validateTaskChain_misses_closed_cycle :
    walkAt tpCycClosed "t1" 2 = some "t1" ∧
      (validateTaskChain tpCycClosed).isValid = true := by
  decide

/-- C5, code bug: on `t1 → t2 → t3 → t2` the task-chain validation fails,
yet `handleSave` saves the pattern anyway: its guard negates the returned
`{isValid, message}` object — which, being an object, is always truthy — so
the guard can never fire. -/
theorem handleSave_ignores_failed_validation :
    (validateTaskChain tpStartCycle).isValid = false ∧
      handleSave "Pattern1" tpStartCycle = .saved := by
  decide

/-- C9, counterexample: a pattern with exactly one task (no links, no
terminal marker) has that task flagged as isolated, and the flag is a hard
failure — `validateTaskChain` returns `isValid = false`, contradicting both
"warnings only" and "a single-task pattern is valid". -/
theorem single_task_pattern_rejected :
    isolatedTasks tpSingle ≠ [] ∧ (validateTaskChain tpSingle).isValid = false := by
  decide

/-- C2, code bug: task `t1` already holds shared resource `r1`
(`maxShares = 1`).  The count consulted by the validator includes `t1`'s own
binding (it is 1, while the spec's self-excluding count is 0), so
re-validating `t1`'s own accepted binding fails. -/
theorem countResourceShares_counts_candidate :
    countResourceShares "r1" tpSelf = 1 ∧
      specUsageCount "r1" "t1" tpSelf = 0 ∧
      validateResourceAllocation "t1" "roleA" "r1" tpSelf resSharedOne =
        ⟨false, "Resource sharing limit reached"⟩ := by
  decide

/-- C3, counterexample: both `t1` and `t2` hold exclusive resource `r1`, so
the usage count for candidate `t1` is 1, not 0 — yet the validator admits
the binding because `t1` itself already uses the resource.  "Admissible iff
the current usage count is 0" is therefore false as an equivalence. -/
theorem exclusive_admitted_despite_other_user :
    specUsageCount "r1" "t1" tpDouble = 1 ∧
      (validateResourceAllocation "t1" "roleA" "r1" tpDouble resExclusive).isValid
        = true := by
  decide

/-- C4, counterexample: one ManyToMany task lists shared `r2`
(`maxShares = 2`) under two roles.  Only one task binds `r2`, so granting it
to a second task would make the count of binding tasks 2 ≤ maxShares — but
the validator rejects, because `countResourceShares` counts that single task
twice (once per role list). -/
theorem shared_rejected_below_task_capacity :
    specUsageCount "r2" "t9" tpRoleDup = 1 ∧
      (tpRoleDup.filter (fun e => bindingContains e.2 "r2")).length + 1 ≤ 2 ∧
      (validateResourceAllocation "t9" "roleA" "r2" tpRoleDup resShared2).isValid
        = false := by
  decide

/-- C8, code bug: editing role `A` to propose `A` itself as parent closes a
cycle — the spec-mandated ancestor walk from the proposed parent rejects it
— yet `handleAddOrEditRole` accepts: `checkCycle` walks the parent chain
STORED for `A` (which is empty) and never looks at the proposed link. -/
theorem roleEdit_accepts_self_parent :
    specParentCycleRejects rolesSingleA roleDataSelf = true ∧
      roleEditAccepted rolesSingleA roleDataSelf = true := by
  decide

/-- C7, counterexample: on the cyclic hierarchy `A ⇄ B` (2 roles) the
recursion of `getRolePermissions` is not bounded by the number of roles —
allowing one more level of recursion than the role count changes the result
— and at depth 3 role `A`'s own permission `p` has flowed into `A`'s own
inherited set. -/
theorem getRolePermissions_unbounded_on_cycle :
    getRolePermissions rolesCyc 2 "A" ≠ getRolePermissions rolesCyc 3 "A" ∧
      (⟨"p", false⟩ : Perm) ∈ (getRolePermissions rolesCyc 3 "A").inherited := by
  decide

/-! ## General theorems about the allocation validator -/

/-- Lemma: `isResourceAvailable` holds iff the excluded (current) task's entry uses
the resource, or every other entry fails the per-task usage test. -/
lemma isResourceAvailable_eq_true_iff (rid excl : String) (tp : List (String × RTask)) :
    isResourceAvailable rid excl tp = true ↔
      ((∃ ct, lookupRTask tp excl = some ct ∧ taskUsesCurrent ct rid = true) ∨
        ∀ e ∈ tp, e.1 ≠ excl → taskUsesOther e.2 rid = false) := by
  unfold isResourceAvailable
  have hany : (!(tp.any fun e => if e.1 = excl then false else taskUsesOther e.2 rid)) = true
      ↔ ∀ e ∈ tp, e.1 ≠ excl → taskUsesOther e.2 rid = false := by
    rw [Bool.not_eq_true', ← Bool.not_eq_true, List.any_eq_true]
    push_neg
    constructor
    · intro h e he hne
      have h2 := h e he
      rw [if_neg hne] at h2
      simpa [Bool.not_eq_true] using h2
    · intro h e he
      by_cases hne : e.1 = excl
      · simp [hne]
      · rw [if_neg hne]
        simp [h e he hne]
  cases hct : lookupRTask tp excl with
  | none =>
    show (!(tp.any fun e => if e.1 = excl then false else taskUsesOther e.2 rid)) = true ↔ _
    rw [hany]
    constructor
    · intro h
      exact Or.inr h
    · intro h
      rcases h with ⟨ct, hcteq, _⟩ | h
      · cases hcteq
      · exact h
  | some ct =>
    show (if taskUsesCurrent ct rid = true then true
        else !(tp.any fun e => if e.1 = excl then false else taskUsesOther e.2 rid)) = true ↔ _
    cases hu : taskUsesCurrent ct rid with
    | true =>
      rw [if_pos rfl]
      exact iff_of_true rfl (Or.inl ⟨ct, rfl, hu⟩)
    | false =>
      rw [if_neg (by simp)]
      rw [hany]
      constructor
      · intro h
        exact Or.inr h
      · intro h
        rcases h with ⟨ct', hcteq, hu'⟩ | h
        · injection hcteq with hcteq
          rw [hcteq] at hu
          rw [hu] at hu'
          cases hu'
        · exact h

/-- C3, amended: for an exclusive resource the validator admits the binding
iff the candidate task itself already uses the resource, or no other task's
entry uses it (so in every state where the candidate does not already hold
the resource, admissible iff the usage count over other tasks is zero:
a second task is rejected, re-binding the holder succeeds). -/
theorem exclusive_allocation_characterization (taskId roleId resourceId : String)
    (tp : List (String × RTask)) (resources : List Resource) (r : Resource)
    (ht : taskId ≠ "") (hr : resourceId ≠ "")
    (hfind : resources.find? (fun x => x.id = resourceId) = some r)
    (hshared : r.isShared = false) :
    (validateResourceAllocation taskId roleId resourceId tp resources).isValid = true ↔
      ((∃ ct, lookupRTask tp taskId = some ct ∧ taskUsesCurrent ct resourceId = true) ∨
        ∀ e ∈ tp, e.1 ≠ taskId → taskUsesOther e.2 resourceId = false) := by
  unfold validateResourceAllocation
  rw [if_neg (not_or.mpr ⟨ht, hr⟩), hfind]
  simp only [hshared, Bool.false_eq_true, if_false]
  exact isResourceAvailable_eq_true_iff resourceId taskId tp

/-- Witness for `exclusive_allocation_characterization`: re-binding `r1` to
`t1`, which already holds it, is admitted. -/
theorem exclusive_allocation_witness :
    ("t1" ≠ "" ∧ "r1" ≠ "" ∧
        resExclusive.find? (fun x => x.id = "r1") = some ⟨"r1", false, none⟩ ∧
        (⟨"r1", false, none⟩ : Resource).isShared = false) ∧
      ((validateResourceAllocation "t1" "roleA" "r1" tpSelf resExclusive).isValid = true ↔
        ((∃ ct, lookupRTask tpSelf "t1" = some ct ∧ taskUsesCurrent ct "r1" = true) ∨
          ∀ e ∈ tpSelf, e.1 ≠ "t1" → taskUsesOther e.2 "r1" = false)) :=
  ⟨⟨by decide, by decide, by decide, by decide⟩,
    exclusive_allocation_characterization "t1" "roleA" "r1" tpSelf resExclusive
      ⟨"r1", false, none⟩ (by decide) (by decide) (by decide) (by decide)⟩

/-- C4, amended: for a shared resource the validator admits the binding iff
`countResourceShares` — which counts every task including the candidate, one
unit per matching direct `resourceId` plus one unit per `roleResources` role
list containing the resource — is strictly below `maxShares || 1`.  The
validator is a pure decision function: it returns only a verdict and leaves
the supplied task map and resource list untouched. -/
theorem shared_allocation_characterization (taskId roleId resourceId : String)
    (tp : List (String × RTask)) (resources : List Resource) (r : Resource)
    (ht : taskId ≠ "") (hr : resourceId ≠ "")
    (hfind : resources.find? (fun x => x.id = resourceId) = some r)
    (hshared : r.isShared = true) :
    (validateResourceAllocation taskId roleId resourceId tp resources).isValid = true ↔
      countResourceShares resourceId tp < effMaxShares r := by
  unfold validateResourceAllocation
  rw [if_neg (not_or.mpr ⟨ht, hr⟩), hfind]
  simp only [hshared, if_true]
  by_cases hc : countResourceShares resourceId tp ≥ effMaxShares r
  · rw [if_pos hc]
    have hlt : ¬countResourceShares resourceId tp < effMaxShares r := by omega
    simp [hlt]
  · rw [if_neg hc]
    have hlt : countResourceShares resourceId tp < effMaxShares r := by omega
    simp [hlt]

/-- Witness for `shared_allocation_characterization`: binding shared `r2`
(`maxShares = 2`) to a first task over an empty task map is admitted. -/
theorem shared_allocation_witness :
    ("t1" ≠ "" ∧ "r2" ≠ "" ∧
        resShared2.find? (fun x => x.id = "r2") = some ⟨"r2", true, some 2⟩ ∧
        (⟨"r2", true, some 2⟩ : Resource).isShared = true) ∧
      ((validateResourceAllocation "t1" "roleA" "r2" [] resShared2).isValid = true ↔
        countResourceShares "r2" [] < effMaxShares ⟨"r2", true, some 2⟩) :=
  ⟨⟨by decide, by decide, by decide, by decide⟩,
    shared_allocation_characterization "t1" "roleA" "r2" [] resShared2
      ⟨"r2", true, some 2⟩ (by decide) (by decide) (by decide) (by decide)⟩

/-! ## The `nextTaskId` walk: basic lemmas -/

lemma walkAt_zero (tp : TaskMap) (s : String) : walkAt tp s 0 = some s := rfl

lemma walkAt_succ (tp : TaskMap) (s : String) (k : Nat) :
    walkAt tp s (k + 1) = stepNext tp (walkAt tp s k) :=
  Function.iterate_succ_apply' (stepNext tp) k (some s)

/-- A dead walk stays dead. -/
lemma walkAt_none_succ (tp : TaskMap) (s : String) (k : Nat)
    (h : walkAt tp s k = none) : walkAt tp s (k + 1) = none := by
  rw [walkAt_succ, h]
  rfl

/-- If the walk is alive at `m` it is alive at every earlier index. -/
lemma walkAt_alive_mono (tp : TaskMap) (s : String) :
    ∀ m, walkAt tp s m ≠ none → ∀ j, j ≤ m → walkAt tp s j ≠ none := by
  intro m
  induction m with
  | zero =>
    intro h j hj
    have : j = 0 := Nat.le_zero.mp hj
    rw [this]
    exact h
  | succ m ih =>
    intro h j hj
    rcases Nat.lt_or_ge j (m + 1) with hlt | hge
    · have hm : walkAt tp s m ≠ none := by
        intro hdead
        exact h (walkAt_none_succ tp s m hdead)
      exact ih hm j (by omega)
    · have : j = m + 1 := by omega
      rw [this]
      exact h

/-- Shifting along the walk: the walk continued from an intermediate node is
a suffix of the original walk. -/
lemma walkAt_shift (tp : TaskMap) (s v : String) (m : Nat)
    (h : walkAt tp s m = some v) (j : Nat) :
    walkAt tp s (j + m) = walkAt tp v j := by
  unfold walkAt
  rw [Function.iterate_add_apply]
  show (stepNext tp)^[j] (walkAt tp s m) = _
  rw [h]

/-- A walk that revisits a node is periodic from there on, hence never
dies. -/
lemma walkRevisits_infinite (tp : TaskMap) (s : String)
    (h : walkRevisits tp s) : walkInfinite tp s := by
  obtain ⟨a, b, hab, u, ha, hb⟩ := h
  intro k
  induction k using Nat.strong_induction_on with
  | _ k ih =>
    rcases le_or_lt k b with hk | hk
    · have hbne : walkAt tp s b ≠ none := by
        rw [hb]
        exact Option.some_ne_none u
      exact walkAt_alive_mono tp s b hbne k hk
    · have hstep : walkAt tp s k = walkAt tp s (k - b + a) := by
        have h1 : walkAt tp s (k - b + b) = walkAt tp u (k - b) := walkAt_shift tp s u b hb _
        have h2 : walkAt tp s (k - b + a) = walkAt tp u (k - b) := walkAt_shift tp s u a ha _
        have h3 : k - b + b = k := by omega
        rw [h3] at h1
        rw [h1, h2]
      rw [hstep]
      exact ih (k - b + a) (by omega)

/-- The key at a walk index, given the walk is alive there. -/
lemma walkAt_isSome (tp : TaskMap) (s : String) (k : Nat)
    (h : walkAt tp s k ≠ none) : ∃ u, walkAt tp s k = some u := by
  cases hw : walkAt tp s k with
  | none => exact absurd hw h
  | some u => exact ⟨u, rfl⟩

/-- A node with a live successor step is a key of the task map. -/
lemma mem_keys_of_stepNext (tp : TaskMap) (u : String)
    (h : stepNext tp (some u) ≠ none) : u ∈ tp.map (fun e => e.1) := by
  have h2 : ((lookupTask tp u).bind fun t => t.nextTaskId) ≠ none := h
  cases hl : lookupTask tp u with
  | none =>
    rw [hl] at h2
    exact absurd rfl h2
  | some t =>
    unfold lookupTask at hl
    cases hf : tp.find? (fun e => e.1 = u) with
    | none =>
      rw [hf] at hl
      cases hl
    | some e =>
      have hmem : e ∈ tp := List.mem_of_find?_eq_some hf
      have hp := List.find?_some hf
      have hek : e.1 = u := of_decide_eq_true hp
      rw [← hek]
      exact List.mem_map_of_mem (fun e => e.1) hmem

/-- Pigeonhole: a never-dying walk must revisit some key, since every node
with a successor is one of the finitely many map keys. -/
lemma walkInfinite_revisits (tp : TaskMap) (s : String)
    (h : walkInfinite tp s) : walkRevisits tp s := by
  classical
  set L := tp.length with hL
  have hmaps : ∀ i : Fin (L + 1),
      (walkAt tp s i.val).getD "" ∈ (tp.map (fun e => e.1)).toFinset := by
    intro i
    obtain ⟨u, hu⟩ := walkAt_isSome tp s i.val (h i.val)
    have hstep : stepNext tp (some u) ≠ none := by
      have hnext := h (i.val + 1)
      rw [walkAt_succ, hu] at hnext
      exact hnext
    rw [hu]
    exact List.mem_toFinset.mpr (mem_keys_of_stepNext tp u hstep)
  have hcard : ((tp.map (fun e => e.1)).toFinset).card < (Finset.univ : Finset (Fin (L + 1))).card := by
    have h1 : ((tp.map (fun e => e.1)).toFinset).card ≤ (tp.map (fun e => e.1)).length :=
      (tp.map (fun e => e.1)).toFinset_card_le
    have h2 : (tp.map (fun e => e.1)).length = L := by rw [List.length_map]
    have h3 : (Finset.univ : Finset (Fin (L + 1))).card = L + 1 := by
      rw [Finset.card_univ, Fintype.card_fin]
    omega
  obtain ⟨i, _, j, _, hij, heq⟩ :=
    Finset.exists_ne_map_eq_of_card_lt_of_maps_to hcard (fun i _ => hmaps i)
  obtain ⟨u, hu⟩ := walkAt_isSome tp s i.val (h i.val)
  obtain ⟨v, hv⟩ := walkAt_isSome tp s j.val (h j.val)
  have huv : u = v := by
    rw [hu, hv] at heq
    exact heq
  have hvalne : i.val ≠ j.val := fun hc => hij (Fin.ext hc)
  rcases Nat.lt_or_ge i.val j.val with hlt | hge
  · exact ⟨i.val, j.val, hlt, u, hu, huv ▸ hv⟩
  · have hlt : j.val < i.val := by omega
    exact ⟨j.val, i.val, hlt, v, hv, huv ▸ hu⟩

/-! ## Behavior of `checkCircular` -/

/-- One step of the walk through a task that has a successor. -/
lemma walkAt_step_of_next (tp : TaskMap) (id : String) (t : ChainTask) (nxt : String)
    (hl : lookupTask tp id = some t) (hn : t.nextTaskId = some nxt) (k : Nat) :
    walkAt tp id (k + 1) = walkAt tp nxt k := by
  have h1 : stepNext tp (some id) = some nxt := by
    show ((lookupTask tp id).bind fun t => t.nextTaskId) = some nxt
    rw [hl]
    exact hn
  unfold walkAt
  rw [Function.iterate_succ_apply, h1]

/-- Soundness of the circular-dependency error: if a walk pushes the error,
the walk from its root reaches a node of the initial `path`, or revisits a
node of its own. -/
lemma checkCircular_err (tp : TaskMap) :
    ∀ fuel id path visited, (checkCircular tp fuel id path visited).2 = true →
      ∃ k u, walkAt tp id k = some u ∧
        (u ∈ path ∨ ∃ j, j < k ∧ walkAt tp id j = some u) := by
  intro fuel
  induction fuel with
  | zero =>
    intro id path visited h
    simp [checkCircular] at h
  | succ m ih =>
    intro id path visited h
    simp only [checkCircular] at h
    by_cases hpath : id ∈ path
    · exact ⟨0, id, rfl, Or.inl hpath⟩
    · rw [if_neg hpath] at h
      by_cases hvis : id ∈ visited
      · rw [if_pos hvis] at h
        cases h
      · rw [if_neg hvis] at h
        cases hl : lookupTask tp id with
        | none =>
          simp only [hl] at h
          exact Bool.noConfusion h
        | some t =>
          simp only [hl] at h
          cases hn : t.nextTaskId with
          | none =>
            simp only [hn] at h
            exact Bool.noConfusion h
          | some nxt =>
            simp only [hn] at h
            obtain ⟨k, u, hw, hcase⟩ := ih nxt (id :: path) (id :: visited) h
            have hshift := walkAt_step_of_next tp id t nxt hl hn
            rcases hcase with hmem | ⟨j, hj, hwj⟩
            · rcases List.mem_cons.mp hmem with heq | hmem'
              · subst heq
                exact ⟨k + 1, u, by rw [hshift k]; exact hw, Or.inr ⟨0, by omega, rfl⟩⟩
              · exact ⟨k + 1, u, by rw [hshift k]; exact hw, Or.inl hmem'⟩
            · exact ⟨k + 1, u, by rw [hshift k]; exact hw,
                Or.inr ⟨j + 1, by omega, by rw [hshift j]; exact hwj⟩⟩

/-- A walk started with an empty `path` that pushes the error has a
revisiting root. -/
lemma checkCircular_err_revisits (tp : TaskMap) (fuel : Nat) (id : String)
    (visited : List String)
    (h : (checkCircular tp fuel id [] visited).2 = true) : walkRevisits tp id := by
  obtain ⟨k, u, hw, hcase⟩ := checkCircular_err tp fuel id [] visited h
  rcases hcase with hmem | ⟨j, hj, hwj⟩
  · exact absurd hmem (List.not_mem_nil u)
  · exact ⟨j, k, hj, u, hwj, hw⟩

/-- Map keys not yet visited — the fuel measure of `checkCircular`. -/
def freeKeys (tp : TaskMap) (visited : List String) : Nat :=
  ((tp.map (fun e => e.1)).toFinset \ visited.toFinset).card

lemma freeKeys_le (tp : TaskMap) (visited : List String) :
    freeKeys tp visited ≤ tp.length := by
  unfold freeKeys
  calc ((tp.map (fun e => e.1)).toFinset \ visited.toFinset).card
      ≤ ((tp.map (fun e => e.1)).toFinset).card :=
        Finset.card_le_card (Finset.sdiff_subset)
    _ ≤ (tp.map (fun e => e.1)).length := (tp.map (fun e => e.1)).toFinset_card_le
    _ = tp.length := List.length_map tp (fun e => e.1)

lemma freeKeys_cons_lt (tp : TaskMap) (visited : List String) (id : String)
    (hid : id ∈ tp.map (fun e => e.1)) (hvis : id ∉ visited) :
    freeKeys tp (id :: visited) < freeKeys tp visited := by
  unfold freeKeys
  have hmem : id ∈ (tp.map (fun e => e.1)).toFinset \ visited.toFinset :=
    Finset.mem_sdiff.mpr ⟨List.mem_toFinset.mpr hid, fun hc => hvis (List.mem_toFinset.mp hc)⟩
  have heq : (tp.map (fun e => e.1)).toFinset \ (id :: visited).toFinset
      = ((tp.map (fun e => e.1)).toFinset \ visited.toFinset).erase id := by
    rw [List.toFinset_cons, Finset.sdiff_insert]
  rw [heq]
  exact Finset.card_erase_lt_of_mem hmem

/-- A key the walk is standing on is in the map whenever the walk survives
one more step; used to justify the fuel bound.  If a walk with enough fuel
pushes no error although its root's walk never dies, the walk was stopped by
a node of the shared `visited` set that lies on the root's walk and outside
the current `path`. -/
lemma checkCircular_noerr (tp : TaskMap) :
    ∀ fuel id path visited, freeKeys tp visited < fuel →
      (checkCircular tp fuel id path visited).2 = false →
      walkInfinite tp id →
      ∃ k v, walkAt tp id k = some v ∧ v ∈ visited ∧ v ∉ path := by
  intro fuel
  induction fuel with
  | zero =>
    intro id path visited hfuel h hinf
    omega
  | succ m ih =>
    intro id path visited hfuel h hinf
    simp only [checkCircular] at h
    by_cases hpath : id ∈ path
    · rw [if_pos hpath] at h
      cases h
    · rw [if_neg hpath] at h
      by_cases hvis : id ∈ visited
      · exact ⟨0, id, rfl, hvis, hpath⟩
      · rw [if_neg hvis] at h
        cases hl : lookupTask tp id with
        | none =>
          exfalso
          apply hinf 1
          rw [walkAt_succ, walkAt_zero]
          show ((lookupTask tp id).bind fun t => t.nextTaskId) = none
          rw [hl]
          rfl
        | some t =>
          simp only [hl] at h
          cases hn : t.nextTaskId with
          | none =>
            exfalso
            apply hinf 1
            rw [walkAt_succ, walkAt_zero]
            show ((lookupTask tp id).bind fun t => t.nextTaskId) = none
            rw [hl]
            exact hn
          | some nxt =>
            simp only [hn] at h
            have hshift := walkAt_step_of_next tp id t nxt hl hn
            have hidk : id ∈ tp.map (fun e => e.1) := by
              apply mem_keys_of_stepNext tp id
              have h1 : stepNext tp (some id) = some nxt := by
                show ((lookupTask tp id).bind fun x => x.nextTaskId) = some nxt
                rw [hl]
                exact hn
              rw [h1]
              exact Option.some_ne_none nxt
            have hfuel' : freeKeys tp (id :: visited) < m := by
              have := freeKeys_cons_lt tp visited id hidk hvis
              omega
            have hinf' : walkInfinite tp nxt := by
              intro k
              rw [← hshift k]
              exact hinf (k + 1)
            obtain ⟨k, v, hw, hv, hp⟩ := ih nxt (id :: path) (id :: visited) hfuel' h hinf'
            have hvne : v ≠ id := fun hc => hp (hc ▸ List.mem_cons_self id path)
            rcases List.mem_cons.mp hv with heq | hv'
            · exact absurd heq hvne
            · refine ⟨k + 1, v, ?_, hv', fun hc => hp (List.mem_cons_of_mem id hc)⟩
              rw [hshift k]
              exact hw

/-- Every node in the `visited` set returned by a walk was already visited
or lies on the walk from the processed root. -/
lemma checkCircular_visited (tp : TaskMap) :
    ∀ fuel id path visited, ∀ v ∈ (checkCircular tp fuel id path visited).1,
      v ∈ visited ∨ ∃ m, walkAt tp id m = some v := by
  intro fuel
  induction fuel with
  | zero =>
    intro id path visited v hv
    exact Or.inl hv
  | succ m ih =>
    intro id path visited v hv
    simp only [checkCircular] at hv
    by_cases hpath : id ∈ path
    · rw [if_pos hpath] at hv
      exact Or.inl hv
    · rw [if_neg hpath] at hv
      by_cases hvis : id ∈ visited
      · rw [if_pos hvis] at hv
        exact Or.inl hv
      · rw [if_neg hvis] at hv
        cases hl : lookupTask tp id with
        | none =>
          simp only [hl] at hv
          exact Or.inl hv
        | some t =>
          simp only [hl] at hv
          cases hn : t.nextTaskId with
          | none =>
            simp only [hn] at hv
            rcases List.mem_cons.mp hv with heq | hv'
            · exact Or.inr ⟨0, by rw [heq]; exact walkAt_zero tp id⟩
            · exact Or.inl hv'
          | some nxt =>
            simp only [hn] at hv
            have hshift := walkAt_step_of_next tp id t nxt hl hn
            rcases ih nxt (id :: path) (id :: visited) v hv with hv' | ⟨k, hw⟩
            · rcases List.mem_cons.mp hv' with heq | hv''
              · exact Or.inr ⟨0, by rw [heq]; exact walkAt_zero tp id⟩
              · exact Or.inl hv''
            · exact Or.inr ⟨k + 1, by rw [hshift k]; exact hw⟩

/-- A suffix of a never-dying walk never dies. -/
lemma walkInfinite_suffix (tp : TaskMap) (s v : String) (m : Nat)
    (hm : walkAt tp s m = some v) (hinf : walkInfinite tp s) : walkInfinite tp v := by
  intro j
  rw [← walkAt_shift tp s v m hm j]
  exact hinf (j + m)

/-- A walk passing through a node whose own walk never dies never dies. -/
lemma walkInfinite_of_on_walk (tp : TaskMap) (s v : String) (m : Nat)
    (hm : walkAt tp s m = some v) (hinf : walkInfinite tp v) : walkInfinite tp s := by
  intro k
  rcases le_or_lt k m with hk | hk
  · have hmne : walkAt tp s m ≠ none := by
      rw [hm]
      exact Option.some_ne_none v
    exact walkAt_alive_mono tp s m hmne k hk
  · have h2 := walkAt_shift tp s v m hm (k - m)
    have h3 : k - m + m = k := by omega
    rw [h3] at h2
    rw [h2]
    exact hinf (k - m)

/-! ## The walk fold of `validateTaskChain` -/

/-- The error counter never decreases along the fold. -/
lemma runWalks_le (tp : TaskMap) :
    ∀ (l : List ChainTask) (V : List String) (e : Nat), e ≤ runWalks tp l V e := by
  intro l
  induction l with
  | nil =>
    intro V e
    exact Nat.le_refl _
  | cons t rest ih =>
    intro V e
    show e ≤ runWalks tp rest (checkCircular tp (tp.length + 1) t.id [] V).1
      (if (checkCircular tp (tp.length + 1) t.id [] V).2 then e + 1 else e)
    calc e ≤ (if (checkCircular tp (tp.length + 1) t.id [] V).2 then e + 1 else e) := by
          split <;> omega
      _ ≤ _ := ih _ _

/-- Soundness of the fold: a positive error count means the initial count
was positive or some processed root's walk revisits. -/
lemma runWalks_pos (tp : TaskMap) :
    ∀ (l : List ChainTask) (V : List String) (e : Nat),
      runWalks tp l V e ≠ 0 → e ≠ 0 ∨ ∃ t ∈ l, walkRevisits tp t.id := by
  intro l
  induction l with
  | nil =>
    intro V e h
    exact Or.inl h
  | cons t rest ih =>
    intro V e h
    have h' : runWalks tp rest (checkCircular tp (tp.length + 1) t.id [] V).1
        (if (checkCircular tp (tp.length + 1) t.id [] V).2 then e + 1 else e) ≠ 0 := h
    rcases ih _ _ h' with he' | ⟨t', ht', hrev⟩
    · cases hr2 : (checkCircular tp (tp.length + 1) t.id [] V).2 with
      | true =>
        exact Or.inr ⟨t, List.mem_cons_self t rest,
          checkCircular_err_revisits tp (tp.length + 1) t.id V hr2⟩
      | false =>
        rw [hr2] at he'
        simp only [Bool.false_eq_true, if_false] at he'
        exact Or.inl he'
    · exact Or.inr ⟨t', List.mem_cons_of_mem t ht', hrev⟩

/-- Completeness of the fold.  The invariant carried along: every node of
the shared `visited` set whose walk never dies was put there by a walk that
already pushed the error (so the count is positive).  If some remaining root
revisits, the final count is positive. -/
lemma runWalks_pos_of_revisit (tp : TaskMap) :
    ∀ (l : List ChainTask) (V : List String) (e : Nat),
      (∀ v ∈ V, walkInfinite tp v → e ≠ 0) →
      ((∃ t ∈ l, walkRevisits tp t.id) ∨ e ≠ 0) →
      runWalks tp l V e ≠ 0 := by
  intro l
  induction l with
  | nil =>
    intro V e _ h
    rcases h with ⟨t, ht, _⟩ | he
    · exact absurd ht (List.not_mem_nil t)
    · exact he
  | cons t rest ih =>
    intro V e hInv h
    show runWalks tp rest (checkCircular tp (tp.length + 1) t.id [] V).1
      (if (checkCircular tp (tp.length + 1) t.id [] V).2 then e + 1 else e) ≠ 0
    have hfuel : freeKeys tp V < tp.length + 1 := by
      have := freeKeys_le tp V
      omega
    cases hr2 : (checkCircular tp (tp.length + 1) t.id [] V).2 with
    | true =>
      rw [if_pos rfl]
      apply ih
      · intro v _ _
        exact Nat.succ_ne_zero e
      · exact Or.inr (Nat.succ_ne_zero e)
    | false =>
      have stopped : walkInfinite tp t.id → e ≠ 0 := by
        intro hinfT
        obtain ⟨k2, v2, hw2, hv2, _⟩ :=
          checkCircular_noerr tp (tp.length + 1) t.id [] V hfuel hr2 hinfT
        exact hInv v2 hv2 (walkInfinite_suffix tp t.id v2 k2 hw2 hinfT)
      have hInv' : ∀ v ∈ (checkCircular tp (tp.length + 1) t.id [] V).1,
          walkInfinite tp v → e ≠ 0 := by
        intro v hv hinf
        rcases checkCircular_visited tp (tp.length + 1) t.id [] V v hv with hvV | ⟨m, hm⟩
        · exact hInv v hvV hinf
        · exact stopped (walkInfinite_of_on_walk tp t.id v m hm hinf)
      have hdis : (∃ t' ∈ rest, walkRevisits tp t'.id) ∨ e ≠ 0 := by
        rcases h with ⟨t', ht', hrev⟩ | he
        · rcases List.mem_cons.mp ht' with heq | hmem
          · exact Or.inr (stopped (walkRevisits_infinite tp t.id (heq ▸ hrev)))
          · exact Or.inl ⟨t', hmem, hrev⟩
        · exact Or.inr he
      rw [if_neg Bool.false_ne_true]
      exact ih _ e hInv' hdis

/-- The circular-dependency error count is positive iff some start task's
walk revisits a key. -/
lemma circCount_pos_iff (tp : TaskMap) :
    circCount tp ≠ 0 ↔ ∃ t ∈ startTasks tp, walkRevisits tp t.id := by
  constructor
  · intro h
    rcases runWalks_pos tp (startTasks tp) [] 0 h with h0 | h1
    · exact absurd rfl h0
    · exact h1
  · intro h
    exact runWalks_pos_of_revisit tp (startTasks tp) [] 0
      (fun v hv _ => absurd hv (List.not_mem_nil v)) (Or.inl h)

/-- C1, amended: `validateTaskChain` reports failure iff the task map is
empty, some task is isolated, or the depth-first walk from some start task
(one no task points to) revisits a key via `nextTaskId` hops.  Closed cycles
— ones every task of which has an incoming edge — have no start task leading
into them and are not reported. -/
theorem validateTaskChain_characterization (tp : TaskMap) :
    (validateTaskChain tp).isValid = false ↔
      (tp = [] ∨ isolatedTasks tp ≠ [] ∨ ∃ t ∈ startTasks tp, walkRevisits tp t.id) := by
  unfold validateTaskChain
  by_cases he : tp.isEmpty
  · have htp : tp = [] := List.isEmpty_iff.mp he
    subst htp
    rw [if_pos he]
    exact iff_of_true rfl (Or.inl rfl)
  · rw [if_neg he]
    have htp : tp ≠ [] := fun hc => he (by rw [hc]; rfl)
    show (isolatedMessages tp ++
        List.replicate (circCount tp) "Circular dependency detected in task chain").isEmpty
          = false ↔ _
    constructor
    · intro h
      right
      by_cases hiso : isolatedTasks tp = []
      · right
        apply (circCount_pos_iff tp).mp
        intro hc0
        have hmsgs : isolatedMessages tp = [] := by
          unfold isolatedMessages
          rw [hiso]
          rfl
        rw [hmsgs, hc0] at h
        exact Bool.noConfusion h
      · exact Or.inl hiso
    · intro h
      rcases h with h | h | h
      · exact absurd h htp
      · rw [Bool.eq_false_iff]
        intro hc
        rcases List.append_eq_nil.mp (List.isEmpty_iff.mp hc) with ⟨hmsgs, _⟩
        unfold isolatedMessages at hmsgs
        exact h (List.map_eq_nil_iff.mp hmsgs)
      · rw [Bool.eq_false_iff]
        intro hc
        rcases List.append_eq_nil.mp (List.isEmpty_iff.mp hc) with ⟨_, hrep⟩
        have hcc : circCount tp ≠ 0 := (circCount_pos_iff tp).mpr h
        have hlen := congrArg List.length hrep
        rw [List.length_replicate] at hlen
        exact hcc hlen

/-! ## C9: isolated-task classification -/

/-- C9, amended: a task is flagged isolated by `validateTaskChain` exactly
when it is in the map and has no incoming `nextTaskId` edge, no outgoing
edge and no terminal marker — but the flags land in the error list, so any
isolated task makes the overall result a hard failure (`isValid = false`),
not a warning. -/
theorem isolated_classification (tp : TaskMap) (t : ChainTask) :
    (t ∈ isolatedTasks tp ↔
      (t ∈ tp.map (fun e => e.2) ∧ hasIncoming (tp.map (fun e => e.2)) t = false ∧
        t.nextTaskId = none ∧ t.isEndTask = false)) ∧
      (isolatedTasks tp ≠ [] → (validateTaskChain tp).isValid = false) := by
  constructor
  · unfold isolatedTasks
    rw [List.mem_filter]
    constructor
    · rintro ⟨hm, hcond⟩
      rw [Bool.and_eq_true] at hcond
      rcases hcond with ⟨ha, hb⟩
      rw [Bool.not_eq_true'] at ha hb
      have h1 : hasIncoming (tp.map (fun e => e.2)) t = false := ha
      have h2 : hasOutgoing t = false := hb
      unfold hasOutgoing at h2
      rcases Bool.or_eq_false_iff.mp h2 with ⟨h3, h4⟩
      refine ⟨hm, h1, ?_, h4⟩
      cases hnt : t.nextTaskId with
      | none => rfl
      | some v => rw [hnt] at h3; cases h3
    · rintro ⟨hm, h1, h2, h3⟩
      refine ⟨hm, ?_⟩
      simp [hasOutgoing, h1, h2, h3]
  · intro hne
    unfold validateTaskChain
    by_cases he : tp.isEmpty
    · exfalso
      have : tp = [] := List.isEmpty_iff.mp he
      subst this
      exact hne rfl
    · rw [if_neg he]
      show (isolatedMessages tp ++
        List.replicate (circCount tp) "Circular dependency detected in task chain").isEmpty
          = false
      rw [Bool.eq_false_iff]
      intro hc
      have hnil := List.isEmpty_iff.mp hc
      rcases List.append_eq_nil.mp hnil with ⟨hmsgs, _⟩
      unfold isolatedMessages at hmsgs
      exact hne (List.map_eq_nil_iff.mp hmsgs)

/-- Witness for `isolated_classification`: the single-task pattern has a
nonempty isolated list, and the theorem turns that into a hard failure. -/
theorem isolated_classification_witness :
    isolatedTasks tpSingle ≠ [] ∧ (validateTaskChain tpSingle).isValid = false :=
  ⟨by decide, (isolated_classification tpSingle ⟨"t1", "A", none, false⟩).2 (by decide)⟩

/-! ## General theorems about `getRolePermissions` -/

/-- A rank function witnessing acyclicity of the stored parent links: every
role's rank is strictly below its parent's rank. -/
def parentRankOk (rk : String → Nat) (r : Role) : Bool :=
  match r.parent_role with
  | some p => decide (rk r.name < rk p)
  | none => true

/-- The rank used for the Manager/Employee hierarchy. -/
def rkMgr : String → Nat := fun s => if s = "Employee" then 0 else 1

/-- Folding the child contributions is determined by the recursive results
on the children's names. -/
lemma foldl_contribution_congr (g1 g2 : String → RolePerms) :
    ∀ (children : List Role), (∀ c ∈ children, g1 c.name = g2 c.name) →
      ∀ acc, children.foldl (fun a c => a ++ childContribution (g1 c.name)) acc
        = children.foldl (fun a c => a ++ childContribution (g2 c.name)) acc
  | [], _, _ => rfl
  | c :: cs, h, acc => by
    simp only [List.foldl_cons]
    rw [h c (List.mem_cons_self c cs)]
    exact foldl_contribution_congr g1 g2 cs (fun x hx => h x (List.mem_cons_of_mem _ hx)) _

/-- Fuel-independence of `getRolePermissions` on ranked (acyclic)
hierarchies: any fuel strictly above the queried name's rank gives the same
result. -/
lemma getRolePermissions_stable (roles : List Role) (rk : String → Nat)
    (hrk : roles.all (parentRankOk rk) = true) :
    ∀ k n f1 f2, rk n ≤ k → rk n < f1 → rk n < f2 →
      getRolePermissions roles f1 n = getRolePermissions roles f2 n := by
  intro k
  induction k using Nat.strong_induction_on with
  | _ k ih =>
    intro n f1 f2 hk h1 h2
    obtain ⟨a, rfl⟩ : ∃ a, f1 = a + 1 := ⟨f1 - 1, by omega⟩
    obtain ⟨b, rfl⟩ : ∃ b, f2 = b + 1 := ⟨f2 - 1, by omega⟩
    have hchild : ∀ c ∈ roles.filter (fun r => r.parent_role = some n),
        getRolePermissions roles a c.name = getRolePermissions roles b c.name := by
      intro c hc
      have hmf := List.mem_filter.mp hc
      have hpar : c.parent_role = some n := of_decide_eq_true hmf.2
      have hok := List.all_eq_true.mp hrk c hmf.1
      unfold parentRankOk at hok
      rw [hpar] at hok
      have hlt : rk c.name < rk n := of_decide_eq_true hok
      exact ih (rk c.name) (by omega) c.name a b le_rfl (by omega) (by omega)
    simp only [getRolePermissions]
    cases hfind : roles.find? (fun r => r.name = n) with
    | none => rfl
    | some role =>
      show (⟨role.permissions.map normalizePerm,
          dedupByResource (inheritedOf (getRolePermissions roles a)
            (roles.filter (fun r => r.parent_role = some n)))⟩ : RolePerms)
        = ⟨role.permissions.map normalizePerm,
          dedupByResource (inheritedOf (getRolePermissions roles b)
            (roles.filter (fun r => r.parent_role = some n)))⟩
      congr 1
      unfold inheritedOf
      exact congrArg dedupByResource (foldl_contribution_congr _ _ _ hchild [])

/-- C6: on an acyclic hierarchy (ranked parent links), for a role name `n`
resolving to `role`, `getRolePermissions` returns `direct` = the role's own
normalized permission list, unfiltered (private entries included), and
`inherited` = the concatenation over the child roles (roles whose
`parent_role` equals `n`) of each child's non-private direct permissions
plus the child's own inherited set, de-duplicated by resource name —
together with Scenario D: Manager (parent of Employee, who holds non-private
`timesheet` and private `salary`) inherits `timesheet` but not `salary`,
while Employee's own `direct` still lists the private `salary`. -/
theorem getRolePermissions_spec (roles : List Role) (rk : String → Nat)
    (hrk : roles.all (parentRankOk rk) = true)
    (n : String) (role : Role)
    (hfind : roles.find? (fun r => r.name = n) = some role)
    (f : Nat) (hf : rk n < f) :
    (getRolePermissions roles f n =
      ⟨role.permissions.map normalizePerm,
        dedupByResource (inheritedOf (getRolePermissions roles f)
          (roles.filter (fun r => r.parent_role = some n)))⟩) ∧
      ((⟨"timesheet", false⟩ : Perm) ∈ (getRolePermissions rolesMgr 2 "Manager").inherited ∧
        (∀ b, (⟨"salary", b⟩ : Perm) ∉ (getRolePermissions rolesMgr 2 "Manager").inherited) ∧
        (getRolePermissions rolesMgr 2 "Employee").direct
          = [⟨"timesheet", false⟩, ⟨"salary", true⟩]) := by
  constructor
  · obtain ⟨a, rfl⟩ : ∃ a, f = a + 1 := ⟨f - 1, by omega⟩
    have hchild : ∀ c ∈ roles.filter (fun r => r.parent_role = some n),
        getRolePermissions roles a c.name = getRolePermissions roles (a + 1) c.name := by
      intro c hc
      have hmf := List.mem_filter.mp hc
      have hpar : c.parent_role = some n := of_decide_eq_true hmf.2
      have hok := List.all_eq_true.mp hrk c hmf.1
      unfold parentRankOk at hok
      rw [hpar] at hok
      have hlt : rk c.name < rk n := of_decide_eq_true hok
      exact getRolePermissions_stable roles rk hrk (rk c.name) c.name a (a + 1)
        le_rfl (by omega) (by omega)
    show getRolePermissions roles (a + 1) n = _
    simp only [getRolePermissions, hfind]
    show (⟨role.permissions.map normalizePerm,
        dedupByResource (inheritedOf (getRolePermissions roles a)
          (roles.filter (fun r => r.parent_role = some n)))⟩ : RolePerms) = _
    congr 1
    unfold inheritedOf
    exact congrArg dedupByResource (foldl_contribution_congr _ _ _ hchild [])
  · exact ⟨by decide, by decide, by decide⟩

/-- Witness for `getRolePermissions_spec` at the Manager/Employee
hierarchy. -/
theorem getRolePermissions_spec_witness :
    (rolesMgr.all (parentRankOk rkMgr) = true ∧
        rolesMgr.find? (fun r => r.name = "Manager")
          = some ⟨"Manager", none, [.obj "budget" false]⟩ ∧
        rkMgr "Manager" < 2) ∧
      ((getRolePermissions rolesMgr 2 "Manager" =
        ⟨(⟨"Manager", none, [.obj "budget" false]⟩ : Role).permissions.map normalizePerm,
          dedupByResource (inheritedOf (getRolePermissions rolesMgr 2)
            (rolesMgr.filter (fun r => r.parent_role = some "Manager")))⟩) ∧
        ((⟨"timesheet", false⟩ : Perm) ∈ (getRolePermissions rolesMgr 2 "Manager").inherited ∧
          (∀ b, (⟨"salary", b⟩ : Perm) ∉ (getRolePermissions rolesMgr 2 "Manager").inherited) ∧
          (getRolePermissions rolesMgr 2 "Employee").direct
            = [⟨"timesheet", false⟩, ⟨"salary", true⟩])) :=
  ⟨⟨by decide, by decide, by decide⟩,
    getRolePermissions_spec rolesMgr rkMgr (by decide) "Manager"
      ⟨"Manager", none, [.obj "budget" false]⟩ (by decide) 2 (by decide)⟩

/-- C7, amended: on a hierarchy whose stored parent links are ranked
(acyclic) with every rank below the role count, the recursion of
`getRolePermissions` is bounded by the number of roles: any two fuel bounds
of at least `roles.length` produce the same `{direct, inherited}` result,
so calls on an unchanged hierarchy always agree. -/
theorem getRolePermissions_depth_bounded (roles : List Role) (rk : String → Nat)
    (hrk : roles.all (parentRankOk rk) = true)
    (hbound : roles.all (fun r => decide (rk r.name < roles.length)) = true)
    (n : String) (f1 f2 : Nat) (h1 : roles.length ≤ f1) (h2 : roles.length ≤ f2) :
    getRolePermissions roles f1 n = getRolePermissions roles f2 n := by
  cases hfind : roles.find? (fun x => x.name = n) with
  | some r =>
    have hmem : r ∈ roles := List.mem_of_find?_eq_some hfind
    have hp := List.find?_some hfind
    have hname : r.name = n := of_decide_eq_true hp
    have hlt : rk n < roles.length := by
      have hb := List.all_eq_true.mp hbound r hmem
      have := of_decide_eq_true hb
      rwa [hname] at this
    exact getRolePermissions_stable roles rk hrk (rk n) n f1 f2 le_rfl
      (by omega) (by omega)
  | none =>
    have hval : ∀ f, getRolePermissions roles f n = ⟨[], []⟩ := by
      intro f
      cases f with
      | zero => rfl
      | succ m => simp only [getRolePermissions, hfind]
    rw [hval f1, hval f2]

/-- Witness for `getRolePermissions_depth_bounded` at the Manager/Employee
hierarchy: fuel 2 (the role count) and fuel 5 agree. -/
theorem getRolePermissions_depth_witness :
    (rolesMgr.all (parentRankOk rkMgr) = true ∧
        rolesMgr.all (fun r => decide (rkMgr r.name < rolesMgr.length)) = true ∧
        rolesMgr.length ≤ 2 ∧ rolesMgr.length ≤ 5) ∧
      getRolePermissions rolesMgr 2 "Manager" = getRolePermissions rolesMgr 5 "Manager" :=
  ⟨⟨by decide, by decide, by decide, by decide⟩,
    getRolePermissions_depth_bounded rolesMgr rkMgr (by decide) (by decide)
      "Manager" 2 5 (by decide) (by decide)⟩

/-! ## C10: unrecognized operations -/

/-- C10: any operation name other than `add`, `delete`, `update` falls
through the switch of `validateTaskOperation` and is accepted as valid,
whatever the task data and existing tasks are. -/
theorem validateTaskOperation_unknown_accepted (operation : String)
    (taskData : OpTask) (existingTasks : List (String × OpTask))
    (h1 : operation ≠ "add") (h2 : operation ≠ "delete") (h3 : operation ≠ "update") :
    validateTaskOperation operation taskData existingTasks = ⟨true, none⟩ := by
  unfold validateTaskOperation
  rw [if_neg h1, if_neg h2, if_neg h3]

/-- Witness for `validateTaskOperation_unknown_accepted` at the concrete
operation `"noop"`. -/
theorem validateTaskOperation_unknown_witness :
    ("noop" ≠ "add" ∧ "noop" ≠ "delete" ∧ "noop" ≠ "update") ∧
      validateTaskOperation "noop" ⟨none, none, none⟩ [] = ⟨true, none⟩ :=
  ⟨⟨by decide, by decide, by decide⟩,
    validateTaskOperation_unknown_accepted "noop" ⟨none, none, none⟩ []
      (by decide) (by decide) (by decide)⟩

end RDPM

